import Mathlib

/-!
Verification of the db-wrap storage-access layer.

The development shallowly embeds `src/database.rs`: bytes are natural
numbers, stored keys and values are byte lists, and a single logical store
is a list of key/value records kept in ascending key order (the sorted
iteration order guaranteed by the underlying engine).  Stateful operations
are explicit state-passing functions; fallible operations return an
`Except` result paired with the resulting store, where the error branch
returns the input store because the source bails out before issuing any
engine write.  Engine-level failures (open, read, write, flush errors) are
outside the model, matching the claims' "assuming the engine call
succeeds" provisos.
-/

/-- A byte is modelled as a natural number; keys and values are byte lists. -/
abbrev Bytes := List Nat

/-- `DEFAULT_LEVEL` from the source: the level used when none is decodable. -/
def DEFAULT_LEVEL : Nat := 3

/-- `SEG` from the source: the sentinel byte `'\n' as u8 = 10` framing the level header. -/
def SEG : Nat := 10

/-- `DataLevel::data_lv`: decode the level of a stored value.  If the value is
shorter than 3 bytes, or byte 0 or byte 2 is not `SEG`, the default level is
returned; otherwise byte 1 is the level. -/
def data_lv (d : Bytes) : Nat :=
  if d.length < 3 then DEFAULT_LEVEL
  else if d.getD 0 0 = SEG ∧ d.getD 2 0 = SEG then d.getD 1 0
  else DEFAULT_LEVEL

/-- `DataLevel::data_with_lv`: prepend the 3-byte header `[SEG, lv, SEG]`. -/
def data_with_lv (d : Bytes) (lv : Nat) : Bytes :=
  [SEG, lv, SEG] ++ d

/-- `DataLevel::data_without_lv`: strip the 3-byte header when present,
otherwise return the value unchanged. -/
def data_without_lv (d : Bytes) : Bytes :=
  if d.length < 3 then d
  else if d.getD 0 0 = SEG ∧ d.getD 2 0 = SEG then d.drop 3
  else d

/-- `is_prefix` from the source: `key` is at least as long as the prefix and
agrees with it at every index below the prefix length. -/
def is_prefix (p k : Bytes) : Bool :=
  if k.length < p.length then false
  else (List.range p.length).all (fun i => k.getD i 0 == p.getD i 0)

/-- The engine's bytewise key comparator (RocksDB's default ordering):
strict lexicographic order on byte lists, shorter prefixes first. -/
def bytesLt : Bytes → Bytes → Bool
  | [], [] => false
  | [], _ :: _ => true
  | _ :: _, [] => false
  | a :: as, b :: bs =>
    if a < b then true
    else if b < a then false
    else bytesLt as bs

/-- A logical store: records in the engine's iteration order. -/
abbrev Store := List (Bytes × Bytes)

/-- Engine point read: first record with the given key, if any. -/
def engineGet (k : Bytes) (s : Store) : Option Bytes :=
  match s.find? (fun kv => kv.1 == k) with
  | some kv => some kv.2
  | none => none

/-- Engine point write: replace the record for `k` or insert it at its
sorted position (the engine keeps keys in ascending order). -/
def engineInsert (k v : Bytes) : Store → Store
  | [] => [(k, v)]
  | (k', v') :: rest =>
    if bytesLt k k' then (k, v) :: (k', v') :: rest
    else if k == k' then (k, v) :: rest
    else (k', v') :: engineInsert k v rest

/-- Engine point delete: remove every record with the given key. -/
def engineDelete (k : Bytes) (s : Store) : Store :=
  s.filter (fun kv => kv.1 ≠ k)

/-- The store is in the engine's ascending key order. -/
def sortedStore (s : Store) : Prop :=
  (s.map Prod.fst).Pairwise (fun a b => bytesLt a b = true)

/-- Failure taxonomy relevant to the model: the level-gate policy rejection
(`bail!("data for {} exist with DataLevel {}", ...)` in the source, named
`LevelConflict` by the spec), carrying the attempted and existing levels. -/
inductive DbError where
  | LevelConflict (attempted existing : Nat)
  deriving Repr, DecidableEq

/-- `DbWrap::get`: engine read followed by level stripping (named `dbGet`
here because the bare name `get` is ambiguous in Lean). -/
def dbGet (k : Bytes) (s : Store) : Option Bytes :=
  (engineGet k s).map data_without_lv

/-- `DbWrap::put`: read the existing record; if one exists with
`data_lv old < lv` and `force` is false, bail with the level conflict and
leave the store untouched; otherwise write the encoded value. -/
def put (k v : Bytes) (lv : Nat) (force : Bool) (s : Store) :
    Except DbError Unit × Store :=
  match engineGet k s with
  | some old =>
    if data_lv old < lv ∧ force = false then
      (Except.error (DbError.LevelConflict lv (data_lv old)), s)
    else
      (Except.ok (), engineInsert k (data_with_lv v lv) s)
  | none => (Except.ok (), engineInsert k (data_with_lv v lv) s)

/-- `DbWrap::put_batch`: encode every pair at `DEFAULT_LEVEL` and submit all
of them as one engine write batch (applied in order); the source performs no
level check on this path, so the call only fails on engine errors, which are
outside the model. -/
def put_batch (pairs : List (Bytes × Bytes)) (s : Store) :
    Except DbError Unit × Store :=
  (Except.ok (),
    pairs.foldl (fun st kv => engineInsert kv.1 (data_with_lv kv.2 DEFAULT_LEVEL) st) s)

/-- `DbWrap::delete`: unconditional engine delete followed by a flush. -/
def delete (k : Bytes) (s : Store) : Except DbError Unit × Store :=
  (Except.ok (), engineDelete k s)

/-- `DbWrap::search_keys_by_prefix`: seek the iterator to the first key that
is not below the prefix (on a sorted store, `dropWhile` of the keys strictly
below it), then walk forward to the end collecting the keys that pass
`is_prefix`. -/
def search_keys_by_prefix (p : Bytes) (s : Store) : List Bytes :=
  ((s.map Prod.fst).dropWhile (fun k => bytesLt k p)).filter (fun k => is_prefix p k)

/-- `DbWrap::get_prefix`: re-read every collected key and pair it with its
level-stripped value; keys that read back absent are skipped. -/
def get_prefix (p : Bytes) (s : Store) : List (Bytes × Bytes) :=
  ( search_keys_by_prefix p s).filterMap (fun k =>
    match engineGet k s with
    | some data => some (k, data_without_lv data)
    | none => none)

/-- `DbWrap::delete_prefix`: collect the matching keys, then delete each one
individually. -/
def delete_prefix (p : Bytes) (s : Store) : Except DbError Unit × Store :=
  (Except.ok (), ( search_keys_by_prefix p s).foldl (fun st k => engineDelete k st) s)

/-- The handle registry of `DbWrap`: the configured root path, the map from
resolved path to the opened store handle (handles are numbered), and the
supply of fresh handles. -/
structure Registry where
  root : String
  dbs : List (String × Nat)
  nextId : Nat
  deriving Repr, DecidableEq

/-- `DbWrap::db`: resolve `root + "/" + path`; under the registry's exclusive
section, return the existing handle for the resolved path when present,
otherwise open a fresh store handle and insert it. -/
def dbOpen (r : Registry) (path : String) : Nat × Registry :=
  let resolved := r.root ++ "/" ++ path
  match r.dbs.find? (fun e => e.1 == resolved) with
  | some e => (e.2, r)
  | none =>
    (r.nextId, { r with dbs := (resolved, r.nextId) :: r.dbs, nextId := r.nextId + 1 })

/-- The spec's running example data: keys `"a/1"`, `"a/2"`, `"b/1"` (as
bytes) holding level-3-encoded payloads, in ascending key order. -/
def exampleStore : Store :=
  [([97, 47, 49], data_with_lv [1] 3),
   ([97, 47, 50], data_with_lv [2] 3),
   ([98, 47, 49], data_with_lv [3] 3)]

theorem engineGet_cons (k : Bytes) (kv : Bytes × Bytes) (s : Store) :
    engineGet k (kv :: s) = if kv.1 = k then some kv.2 else engineGet k s := by
  by_cases h : kv.1 = k
  · simp [engineGet, List.find?, h]
  · have hb : (kv.1 == k) = false := beq_eq_false_iff_ne.mpr h
    simp [engineGet, List.find?, hb, h]

theorem engineGet_engineDelete_self (k : Bytes) (s : Store) :
    engineGet k (engineDelete k s) = none := by
  induction s with
  | nil => rfl
  | cons kv rest ih =>
    by_cases h : kv.1 = k
    · simpa [engineDelete, List.filter_cons, h] using ih
    · simpa [engineDelete, List.filter_cons, h, engineGet_cons] using ih

theorem engineGet_engineDelete_ne (k k' : Bytes) (s : Store) (h : k' ≠ k) :
    engineGet k' (engineDelete k s) = engineGet k' s := by
  induction s with
  | nil => rfl
  | cons kv rest ih =>
    by_cases hk : kv.1 = k
    · have hne : ¬ kv.1 = k' := by rw [hk]; exact fun he => h he.symm
      rw [show engineDelete k (kv :: rest) = engineDelete k rest by
            simp [engineDelete, List.filter_cons, hk],
          engineGet_cons, if_neg hne]
      exact ih
    · rw [show engineDelete k (kv :: rest) = kv :: engineDelete k rest by
            simp [engineDelete, List.filter_cons, hk],
          engineGet_cons, engineGet_cons, ih]

theorem engineDelete_of_absent (k : Bytes) (s : Store)
    (h : engineGet k s = none) : engineDelete k s = s := by
  induction s with
  | nil => rfl
  | cons kv rest ih =>
    rw [engineGet_cons] at h
    by_cases hk : kv.1 = k
    · simp [hk] at h
    · simp [hk] at h
      simp [engineDelete, List.filter_cons, hk] at *
      exact ih h

/-- C4.  Value-codec round-trip: stripping the header written by
`data_with_lv` recovers the payload, and decoding it recovers the level, for
every payload and every byte-sized level. -/
theorem codec_roundTrip (v : Bytes) (l : Nat) (hl : l < 256) :
    data_without_lv (data_with_lv v l) = v ∧ data_lv (data_with_lv v l) = l := by
  constructor <;>
    simp [data_with_lv, data_without_lv, data_lv, SEG, List.getD]

/-- Witness for `codec_roundTrip` at payload `[1, 2]` and level `7`. -/
theorem codec_roundTrip_witness :
    data_without_lv (data_with_lv [1, 2] 7) = [1, 2] ∧
      data_lv (data_with_lv [1, 2] 7) = 7 :=
  codec_roundTrip [1, 2] 7 (by decide)

/-- C5.  Decoder default: `data_lv` is total by construction, returns the
default level 3 whenever the value is shorter than 3 bytes or byte 0 or
byte 2 differs from `SEG`, and otherwise returns byte 1. -/
theorem data_lv_default_and_header (x : Bytes) :
    (x.length < 3 ∨ x.getD 0 0 ≠ SEG ∨ x.getD 2 0 ≠ SEG → data_lv x = 3) ∧
    (3 ≤ x.length → x.getD 0 0 = SEG → x.getD 2 0 = SEG → data_lv x = x.getD 1 0) := by
  unfold data_lv DEFAULT_LEVEL
  constructor
  · rintro (h | h | h) <;> split <;> simp_all
  · intro hlen h0 h2
    have hn : ¬ x.length < 3 := by omega
    rw [if_neg hn, if_pos ⟨h0, h2⟩]

/-- Witness for `data_lv_default_and_header` at the 2-byte value `[10, 5]`
(shorter than 3 bytes, hence level 3) via the first conjunct. -/
theorem data_lv_default_and_header_witness : data_lv [10, 5] = 3 :=
  (data_lv_default_and_header [10, 5]).1 (Or.inl (by decide))

/-- C3.  Literal put-gate condition: `put` fails exactly when a record exists
whose stored level is strictly below the attempted level and `force` is
false, carrying those two levels in the conflict; and a failing `put` leaves
the store unchanged (the source bails before issuing the engine write). -/
theorem put_levelConflict_iff (k v : Bytes) (lv : Nat) (force : Bool) (s : Store) :
    (∀ e, (put k v lv force s).1 = Except.error e ↔
      (∃ old, engineGet k s = some old ∧ data_lv old < lv ∧ force = false ∧
        e = DbError.LevelConflict lv (data_lv old))) ∧
    (∀ e, (put k v lv force s).1 = Except.error e → (put k v lv force s).2 = s) := by
  unfold put
  cases hg : engineGet k s with
  | none => simp
  | some old =>
    by_cases hc : data_lv old < lv ∧ force = false
    · simp [hc]
      intro e
      exact eq_comm
    · simp [hc]
      intro e h1 h2
      exact absurd ⟨h1, h2⟩ hc

/-- Witness for `put_levelConflict_iff`: a record stored at level 5 makes a
level-7 unforced put fail with the conflict carrying both levels. -/
theorem put_levelConflict_iff_witness :
    (put [0] [2] 7 false [([0], data_with_lv [1] 5)]).1 =
      Except.error (DbError.LevelConflict 7 5) :=
  ((put_levelConflict_iff [0] [2] 7 false [([0], data_with_lv [1] 5)]).1
      (DbError.LevelConflict 7 5)).mpr
    ⟨data_with_lv [1] 5, by decide, by decide, rfl, by decide⟩

/-- C1 counterexample.  With an existing record at level 5, the claim says an
unforced put at level 7 succeeds and an unforced put at level 3 fails; the
code does the opposite on both counts. -/
theorem put_gate_claim_cex :
    (put [0] [2] 7 false [([0], data_with_lv [1] 5)]).1 =
      Except.error (DbError.LevelConflict 7 5) ∧
    (put [0] [2] 3 false [([0], data_with_lv [1] 5)]).1 = Except.ok () := by
  constructor <;> rfl

/-- C1 amended.  Overwrite gate as implemented: a put to an absent key always
succeeds, a forced put always succeeds, and against an existing record at
stored level `e` an unforced put at level `l` succeeds iff `l ≤ e` and fails
with the level conflict iff `e < l`. -/
theorem put_gate_amended (k v : Bytes) (lv : Nat) (force : Bool) (s : Store) :
    (engineGet k s = none →
      put k v lv force s = (Except.ok (), engineInsert k (data_with_lv v lv) s)) ∧
    (force = true →
      put k v lv force s = (Except.ok (), engineInsert k (data_with_lv v lv) s)) ∧
    (∀ old, engineGet k s = some old → force = false →
      (lv ≤ data_lv old →
        put k v lv force s = (Except.ok (), engineInsert k (data_with_lv v lv) s)) ∧
      (data_lv old < lv →
        put k v lv force s = (Except.error (DbError.LevelConflict lv (data_lv old)), s))) := by
  refine ⟨fun hn => ?_, fun hf => ?_, fun old hg hf => ⟨fun hle => ?_, fun hlt => ?_⟩⟩
  · simp [put, hn]
  · cases hg : engineGet k s <;> simp [put, hg, hf]
  · have : ¬ (data_lv old < lv ∧ force = false) := fun hc => absurd hle (by omega)
    simp [put, hg, this]
  · simp [put, hg, hlt, hf]

/-- Witness for `put_gate_amended`: against a record at level 5, an unforced
put at level 3 succeeds and overwrites. -/
theorem put_gate_amended_witness :
    put [0] [2] 3 false [([0], data_with_lv [1] 5)] =
      (Except.ok (), engineInsert [0] (data_with_lv [2] 3) [([0], data_with_lv [1] 5)]) :=
  ((put_gate_amended [0] [2] 3 false [([0], data_with_lv [1] 5)]).2.2
      (data_with_lv [1] 5) (by decide) rfl).1 (by decide)

/-- C9.  Delete idempotence: `delete` always succeeds, leaves the key absent,
leaves every other key's readable value unchanged, and deleting an absent key
does not change the store contents at all. -/
theorem delete_idempotent (k : Bytes) (s : Store) :
    (delete k s).1 = Except.ok () ∧
    dbGet k (delete k s).2 = none ∧
    (∀ k', k' ≠ k → dbGet k' (delete k s).2 = dbGet k' s) ∧
    (engineGet k s = none → (delete k s).2 = s) := by
  refine ⟨rfl, ?_, fun k' hk => ?_, fun h => engineDelete_of_absent k s h⟩
  · simp [dbGet, delete, engineGet_engineDelete_self]
  · simp [dbGet, delete, engineGet_engineDelete_ne k k' s hk]

/-- Witness for `delete_idempotent`: the frame conjunct at key `[1]` after
deleting key `[2]`, and the no-op conjunct on a store lacking `[2]`. -/
theorem delete_idempotent_witness :
    dbGet [1] (delete [2] [([1], [9])]).2 = dbGet [1] [([1], [9])] ∧
    (delete [2] [([1], [9])]).2 = [([1], [9])] :=
  ⟨(delete_idempotent [2] [([1], [9])]).2.2.1 [1] (by decide),
   (delete_idempotent [2] [([1], [9])]).2.2.2 (by decide)⟩

theorem data_with_lv_lv (v : Bytes) (l : Nat) : data_lv (data_with_lv v l) = l := by
  simp [data_with_lv, data_lv, SEG, List.getD]

theorem data_with_lv_without (v : Bytes) (l : Nat) :
    data_without_lv (data_with_lv v l) = v := by
  simp [data_with_lv, data_without_lv, SEG, List.getD]

theorem is_prefix_nil (k : Bytes) : is_prefix [] k = true := by
  simp [ is_prefix]

theorem is_prefix_cons (a b : Nat) (as bs : Bytes) :
    is_prefix (a :: as) (b :: bs) = ((b == a) && is_prefix as bs) := by
  unfold is_prefix
  by_cases h : bs.length < as.length
  · simp [h, Nat.succ_lt_succ_iff]
  · simp [h, Nat.succ_lt_succ_iff, List.range_succ_eq_map, List.all_map, Function.comp,
      List.getD_cons_succ, List.getD_cons_zero]
    congr 2
    funext i
    simp [Function.comp]

theorem bytesLt_irrefl (a : Bytes) : bytesLt a a = false := by
  induction a with
  | nil => rfl
  | cons x xs ih => simp [bytesLt, ih]

theorem bytesLt_of_is_prefix (p k : Bytes) (h : is_prefix p k = true) :
    bytesLt k p = false := by
  induction p generalizing k with
  | nil => cases k <;> rfl
  | cons a as ih =>
    cases k with
    | nil => simp [ is_prefix] at h
    | cons b bs =>
      rw [is_prefix_cons] at h
      simp only [Bool.and_eq_true, beq_iff_eq] at h
      obtain ⟨hba, hrest⟩ := h
      subst hba
      simp [bytesLt, ih bs hrest]

theorem filter_dropWhile_eq (p : Bytes) (l : List Bytes) :
    ((l.dropWhile (fun k => bytesLt k p)).filter (fun k => is_prefix p k)) =
      l.filter (fun k => is_prefix p k) := by
  induction l with
  | nil => rfl
  | cons k rest ih =>
    cases hw : bytesLt k p
    · rw [List.dropWhile_cons]
      simp [hw]
    · have hp : is_prefix p k = false := by
        cases hpk : is_prefix p k
        · rfl
        · rw [ bytesLt_of_is_prefix p k hpk] at hw; cases hw
      rw [List.dropWhile_cons]
      simp [hw, List.filter_cons, hp, ih]

theorem search_keys_eq (p : Bytes) (s : Store) :
    search_keys_by_prefix p s = (s.map Prod.fst).filter (fun k => is_prefix p k) :=
  filter_dropWhile_eq p (s.map Prod.fst)

theorem sortedStore_nodup (s : Store) (hs : sortedStore s) : (s.map Prod.fst).Nodup := by
  refine hs.imp ?_
  intro a b hab hEq
  subst hEq
  rw [bytesLt_irrefl] at hab
  cases hab

theorem engineGet_of_mem (s : Store) (kv : Bytes × Bytes)
    (hn : (s.map Prod.fst).Nodup) (hm : kv ∈ s) : engineGet kv.1 s = some kv.2 := by
  induction s with
  | nil => cases hm
  | cons hd tl ih =>
    rw [List.map_cons, List.nodup_cons] at hn
    rcases List.mem_cons.mp hm with h | h
    · subst h
      rw [engineGet_cons, if_pos rfl]
    · have hne : hd.1 ≠ kv.1 := by
        intro he
        exact hn.1 (he ▸ List.mem_map_of_mem Prod.fst h)
      rw [engineGet_cons, if_neg hne]
      exact ih hn.2 h

theorem filterMap_read (s : Store) (l : List (Bytes × Bytes))
    (h : ∀ kv ∈ l, engineGet kv.1 s = some kv.2) :
    (l.map Prod.fst).filterMap (fun k =>
        match engineGet k s with
        | some data => some (k, data_without_lv data)
        | none => none) =
      l.map (fun kv => (kv.1, data_without_lv kv.2)) := by
  induction l with
  | nil => rfl
  | cons kv rest ih =>
    have h0 : engineGet kv.1 s = some kv.2 := h kv (List.mem_cons_self kv rest)
    simp [List.filterMap_cons, h0, ih (fun x hx => h x (List.mem_cons_of_mem _ hx))]

theorem filter_map_keys (p : Bytes) (s : Store) :
    (s.map Prod.fst).filter (fun k => is_prefix p k) =
      (s.filter (fun kv => is_prefix p kv.1)).map Prod.fst := by
  induction s with
  | nil => rfl
  | cons kv rest ih =>
    cases h : is_prefix p kv.1 <;> simp [List.filter_cons, h, ih]

theorem get_prefix_eq (p : Bytes) (s : Store) (hs : sortedStore s) :
    get_prefix p s =
      (s.filter (fun kv => is_prefix p kv.1)).map (fun kv => (kv.1, data_without_lv kv.2)) := by
  have hn := sortedStore_nodup s hs
  unfold get_prefix
  rw [search_keys_eq, filter_map_keys]
  exact filterMap_read s (s.filter (fun kv => is_prefix p kv.1))
    (fun kv hkv => engineGet_of_mem s kv hn (List.mem_of_mem_filter hkv))

theorem engineGet_filter (k : Bytes) (q : Bytes × Bytes → Bool) (s : Store)
    (h : ∀ kv : Bytes × Bytes, kv.1 = k → q kv = true) :
    engineGet k (s.filter q) = engineGet k s := by
  induction s with
  | nil => rfl
  | cons kv rest ih =>
    by_cases hk : kv.1 = k
    · rw [List.filter_cons, if_pos (h kv hk), engineGet_cons, if_pos hk,
        engineGet_cons, if_pos hk]
    · cases hq : q kv
      · rw [List.filter_cons]
        simp only [hq, Bool.false_eq_true, if_false]
        rw [engineGet_cons, if_neg hk]
        exact ih
      · rw [List.filter_cons]
        simp only [hq, if_true]
        rw [engineGet_cons, if_neg hk, engineGet_cons, if_neg hk]
        exact ih

theorem foldl_engineDelete_eq_filter (keys : List Bytes) (s : Store) :
    keys.foldl (fun st k => engineDelete k st) s = s.filter (fun kv => kv.1 ∉ keys) := by
  induction keys generalizing s with
  | nil => simp
  | cons k ks ih =>
    rw [List.foldl_cons, ih]
    show (engineDelete k s).filter _ = _
    rw [engineDelete, List.filter_filter]
    refine List.filter_congr ?_
    intro kv _
    simp [List.mem_cons, not_or, Bool.and_comm]

theorem delete_prefix_eq (p : Bytes) (s : Store) :
    ( delete_prefix p s).2 = s.filter (fun kv => !( is_prefix p kv.1)) := by
  show ( search_keys_by_prefix p s).foldl (fun st k => engineDelete k st) s = _
  rw [search_keys_eq, foldl_engineDelete_eq_filter]
  refine List.filter_congr ?_
  intro kv hm
  have hin : kv.1 ∈ s.map Prod.fst := List.mem_map_of_mem Prod.fst hm
  simp [List.mem_filter, hin]

/-- C6.  Prefix-scan correctness: on a store in the engine's key order,
`get_prefix` returns exactly the records whose keys start with the prefix,
each paired with its level-stripped value, and the returned keys are in
ascending byte order. -/
theorem get_prefix_correct (p : Bytes) (s : Store) (hs : sortedStore s) :
    get_prefix p s =
      (s.filter (fun kv => is_prefix p kv.1)).map (fun kv => (kv.1, data_without_lv kv.2)) ∧
    (( get_prefix p s).map Prod.fst).Pairwise (fun a b => bytesLt a b = true) := by
  refine ⟨get_prefix_eq p s hs, ?_⟩
  rw [get_prefix_eq p s hs]
  have hmm : ((s.filter (fun kv => is_prefix p kv.1)).map
      (fun kv => (kv.1, data_without_lv kv.2))).map Prod.fst
      = (s.filter (fun kv => is_prefix p kv.1)).map Prod.fst := by
    rw [List.map_map]
    rfl
  rw [hmm]
  exact List.Pairwise.sublist ((List.filter_sublist s).map Prod.fst) hs

/-- Witness for `get_prefix_correct`: the spec's example — prefix `"a/"` on
keys `"a/1"`, `"a/2"`, `"b/1"` yields exactly the two `"a/"` records. -/
theorem get_prefix_correct_witness :
    get_prefix [97, 47] exampleStore =
      (exampleStore.filter (fun kv => is_prefix [97, 47] kv.1)).map
        (fun kv => (kv.1, data_without_lv kv.2)) :=
  (get_prefix_correct [97, 47] exampleStore (by unfold sortedStore; decide)).1

/-- C7.  Prefix-delete completeness and frame: `delete_prefix` succeeds, a
subsequent `get_prefix` with the same prefix finds nothing, and the readable
value of every key not starting with the prefix is unchanged. -/
theorem delete_prefix_complete_frame (p : Bytes) (s : Store) :
    ( delete_prefix p s).1 = Except.ok () ∧
    get_prefix p ( delete_prefix p s).2 = [] ∧
    (∀ k, is_prefix p k = false → dbGet k ( delete_prefix p s).2 = dbGet k s) := by
  have h2 := delete_prefix_eq p s
  refine ⟨rfl, ?_, fun k hk => ?_⟩
  · rw [h2]
    unfold get_prefix
    rw [search_keys_eq]
    have hnil : ((s.filter (fun kv => !( is_prefix p kv.1))).map Prod.fst).filter
        (fun k => is_prefix p k) = [] := by
      rw [List.filter_eq_nil_iff]
      intro a ha
      obtain ⟨kv, hkv, rfl⟩ := List.mem_map.mp ha
      have hq := List.of_mem_filter hkv
      simp only [Bool.not_eq_true'] at hq
      simp [hq]
    rw [hnil]
    rfl
  · rw [h2]
    unfold dbGet
    rw [engineGet_filter k _ s (fun kv hkv => by rw [hkv, hk]; rfl)]

/-- Witness for `delete_prefix_complete_frame`: deleting prefix `"a/"` from
the spec's example empties the `"a/"` scan and leaves `"b/1"` readable
unchanged. -/
theorem delete_prefix_complete_frame_witness :
    get_prefix [97, 47] ( delete_prefix [97, 47] exampleStore).2 = [] ∧
    dbGet [98, 47, 49] ( delete_prefix [97, 47] exampleStore).2 =
      dbGet [98, 47, 49] exampleStore :=
  ⟨(delete_prefix_complete_frame [97, 47] exampleStore).2.1,
   (delete_prefix_complete_frame [97, 47] exampleStore).2.2 [98, 47, 49] (by decide)⟩

theorem engineGet_engineInsert_self (k v : Bytes) (s : Store) :
    engineGet k (engineInsert k v s) = some v := by
  induction s with
  | nil => simp [engineInsert, engineGet_cons]
  | cons kv rest ih =>
    obtain ⟨a, b⟩ := kv
    simp only [engineInsert]
    by_cases h1 : bytesLt k a = true
    · simp [h1, engineGet_cons]
    · by_cases h2 : (k == a) = true
      · simp [h1, h2, engineGet_cons]
      · have hak : ¬ a = k := fun he => h2 (by simp [he])
        simp [h1, h2, engineGet_cons, hak, ih]

theorem engineGet_engineInsert_ne (k k' v : Bytes) (s : Store) (h : k' ≠ k) :
    engineGet k' (engineInsert k v s) = engineGet k' s := by
  have hkk : ¬ k = k' := fun he => h he.symm
  induction s with
  | nil => simp [engineInsert, engineGet_cons, hkk, engineGet]
  | cons kv rest ih =>
    obtain ⟨a, b⟩ := kv
    simp only [engineInsert]
    by_cases h1 : bytesLt k a = true
    · simp [h1, engineGet_cons, hkk]
    · by_cases h2 : (k == a) = true
      · have hka : k = a := eq_of_beq h2
        have hak : ¬ a = k' := fun he => hkk (hka.trans he)
        simp [h1, h2, engineGet_cons, hkk, hak]
      · simp [h1, h2, engineGet_cons, ih]

theorem engineGet_foldl_insert_ne (k : Bytes) (l : List (Bytes × Bytes)) (s : Store)
    (h : ∀ kv ∈ l, kv.1 ≠ k) :
    engineGet k
      (l.foldl (fun st kv => engineInsert kv.1 (data_with_lv kv.2 DEFAULT_LEVEL) st) s)
      = engineGet k s := by
  induction l generalizing s with
  | nil => rfl
  | cons kv rest ih =>
    rw [List.foldl_cons, ih _ (fun x hx => h x (List.mem_cons_of_mem _ hx))]
    exact engineGet_engineInsert_ne kv.1 k _ s (h kv (List.mem_cons_self kv rest)).symm

theorem put_batch_last_occurrence (l1 l2 : List (Bytes × Bytes)) (k v : Bytes) (s : Store)
    (h : ∀ kv ∈ l2, kv.1 ≠ k) :
    engineGet k (put_batch (l1 ++ (k, v) :: l2) s).2 =
      some (data_with_lv v DEFAULT_LEVEL) := by
  show engineGet k
      ((l1 ++ (k, v) :: l2).foldl
        (fun st kv => engineInsert kv.1 (data_with_lv kv.2 DEFAULT_LEVEL) st) s) = _
  rw [List.foldl_append, List.foldl_cons, engineGet_foldl_insert_ne k l2 _ h]
  exact engineGet_engineInsert_self k (data_with_lv v DEFAULT_LEVEL) _

/-- C2 counterexample.  A 3-pair batch whose middle pair violates the
single-put level rule (the key holds a level-1 record, and an unforced
single put at the batch's level 3 fails with the conflict): the batch call
nevertheless succeeds and all 3 keys reflect the batch's values, against
the claim that the whole call fails and none are applied. -/
theorem put_batch_validation_cex :
    (put [5] [12] DEFAULT_LEVEL false [([5], data_with_lv [9] 1)]).1 =
      Except.error (DbError.LevelConflict 3 1) ∧
    (put_batch [([1], [11]), ([5], [12]), ([7], [13])] [([5], data_with_lv [9] 1)]).1 =
      Except.ok () ∧
    dbGet [5] (put_batch [([1], [11]), ([5], [12]), ([7], [13])]
      [([5], data_with_lv [9] 1)]).2 = some [12] ∧
    dbGet [1] (put_batch [([1], [11]), ([5], [12]), ([7], [13])]
      [([5], data_with_lv [9] 1)]).2 = some [11] ∧
    dbGet [7] (put_batch [([1], [11]), ([5], [12]), ([7], [13])]
      [([5], data_with_lv [9] 1)]).2 = some [13] := by
  refine ⟨rfl, rfl, by decide, by decide, by decide⟩

/-- C2 amended.  `put_batch` performs no existence/level validation at all:
it never fails with a level conflict, and a pair that the single-put gate
would reject (existing record whose stored level is below the batch's fixed
default level 3) is still written — the batch call succeeds and the key
afterwards reads back the batch's value. -/
theorem put_batch_no_validation (l1 l2 : List (Bytes × Bytes)) (k v old : Bytes) (s : Store)
    (hlast : ∀ kv ∈ l2, kv.1 ≠ k)
    (hold : engineGet k s = some old) (hviol : data_lv old < DEFAULT_LEVEL) :
    (put k v DEFAULT_LEVEL false s).1 =
      Except.error (DbError.LevelConflict DEFAULT_LEVEL (data_lv old)) ∧
    (put_batch (l1 ++ (k, v) :: l2) s).1 = Except.ok () ∧
    dbGet k (put_batch (l1 ++ (k, v) :: l2) s).2 = some v := by
  refine ⟨?_, rfl, ?_⟩
  · simp [put, hold, hviol]
  · unfold dbGet
    rw [put_batch_last_occurrence l1 l2 k v s hlast]
    simp [data_with_lv_without]

/-- Witness for `put_batch_no_validation`: key `[5]` holds a level-1 record;
the 3-pair batch containing `([5], [12])` succeeds and `[5]` reads `[12]`. -/
theorem put_batch_no_validation_witness :
    dbGet [5] (put_batch ([([1], [11])] ++ ([5], [12]) :: [([7], [13])])
      [([5], data_with_lv [9] 1)]).2 = some [12] :=
  (put_batch_no_validation [([1], [11])] [([7], [13])] [5] [12] (data_with_lv [9] 1)
      [([5], data_with_lv [9] 1)] (by decide) (by decide) (by decide)).2.2

/-- C10 counterexample.  The claim quantifies over every pair of the batch;
with a duplicate-key batch `[([0],[1]), ([0],[2])]` the later pair wins, so
the read of `[0]` does not decode to the first pair's value `[1]`. -/
theorem put_batch_tag_claim_cex :
    (([0], [1]) ∈ [(([0] : Bytes), ([1] : Bytes)), ([0], [2])]) ∧
    (put_batch [([0], [1]), ([0], [2])] []).1 = Except.ok () ∧
    dbGet [0] (put_batch [([0], [1]), ([0], [2])] []).2 = some [2] ∧
    ¬ dbGet [0] (put_batch [([0], [1]), ([0], [2])] []).2 = some [1] := by
  refine ⟨by decide, rfl, by decide, by decide⟩

/-- C10 amended.  `put_batch` accepts no level or force argument and tags
every written value with the fixed default level 3: for every pair `(k, v)`
of an applied batch that is not overridden by a later pair with the same
key, the stored bytes are `data_with_lv v 3`, so a read of `k` decodes to
stored level 3 (making the record a level-3 record for the overwrite gate)
and to value `v`. -/
theorem put_batch_level3 (l1 l2 : List (Bytes × Bytes)) (k v : Bytes) (s : Store)
    (h : ∀ kv ∈ l2, kv.1 ≠ k) :
    (put_batch (l1 ++ (k, v) :: l2) s).1 = Except.ok () ∧
    engineGet k (put_batch (l1 ++ (k, v) :: l2) s).2 =
      some (data_with_lv v DEFAULT_LEVEL) ∧
    (engineGet k (put_batch (l1 ++ (k, v) :: l2) s).2).map data_lv =
      some DEFAULT_LEVEL ∧
    dbGet k (put_batch (l1 ++ (k, v) :: l2) s).2 = some v := by
  have hg := put_batch_last_occurrence l1 l2 k v s h
  refine ⟨rfl, hg, ?_, ?_⟩
  · rw [hg]
    simp [data_with_lv_lv]
  · unfold dbGet
    rw [hg]
    simp [data_with_lv_without]

/-- Witness for `put_batch_level3`: a singleton batch writing `[7]` under
key `[4]` stores `data_with_lv [7] 3`. -/
theorem put_batch_level3_witness :
    engineGet [4] (put_batch ([] ++ ([4], [7]) :: []) []).2 =
      some (data_with_lv [7] DEFAULT_LEVEL) :=
  (put_batch_level3 [] [] [4] [7] [] (by simp)).2.1

/-- C8.  Registry single-instance invariant: starting from a registry whose
resolved paths are distinct, looking up a logical path and then looking it
up again yields the same handle and the same registry (the second call never
opens a second store), and the registry after the first call still maps each
resolved path to at most one handle. -/
theorem registry_single_instance (r : Registry) (p : String)
    (h : (r.dbs.map Prod.fst).Nodup) :
    (dbOpen (dbOpen r p).2 p).1 = (dbOpen r p).1 ∧
    (dbOpen (dbOpen r p).2 p).2 = (dbOpen r p).2 ∧
    ((dbOpen r p).2.dbs.map Prod.fst).Nodup := by
  cases hf : r.dbs.find? (fun e => e.1 == r.root ++ "/" ++ p) with
  | some e =>
    have h1 : dbOpen r p = (e.2, r) := by simp [dbOpen, hf]
    simp [h1, h]
  | none =>
    have h1 : dbOpen r p =
        (r.nextId, ⟨r.root, (r.root ++ "/" ++ p, r.nextId) :: r.dbs, r.nextId + 1⟩) := by
      simp [dbOpen, hf]
    have h3 : (r.root ++ "/" ++ p) ∉ r.dbs.map Prod.fst := by
      intro hm
      obtain ⟨ent, hent, heq⟩ := List.mem_map.mp hm
      have hb := List.find?_eq_none.mp hf ent hent
      simp [heq] at hb
    have h2 : dbOpen ⟨r.root, (r.root ++ "/" ++ p, r.nextId) :: r.dbs, r.nextId + 1⟩ p =
        (r.nextId, ⟨r.root, (r.root ++ "/" ++ p, r.nextId) :: r.dbs, r.nextId + 1⟩) := by
      simp [dbOpen, List.find?]
    refine ⟨?_, ?_, ?_⟩
    · rw [h1]
      simp [h2]
    · rw [h1]
      simp [h2]
    · rw [h1]
      simp [List.nodup_cons, h3, h]

/-- Witness for `registry_single_instance`: on the empty registry with root
`"root"`, two lookups of `"a"` return the same fresh handle. -/
theorem registry_single_instance_witness :
    (dbOpen (dbOpen ⟨"root", [], 0⟩ "a").2 "a").1 = (dbOpen ⟨"root", [], 0⟩ "a").1 :=
  (registry_single_instance ⟨"root", [], 0⟩ "a" (by simp)).1
